import Mathlib

/-!
Verification of the PR Review Finder plugin
(`plugins/pr-review-finder/src/main.py`).

The program is a small CLI that loads a Slack channel registry from YAML,
classifies message text with regex heuristics, extracts GitHub pull-request
URLs, and emits a JSON search specification.  This file gives a shallow
embedding of its data model and operations and proves the specification's
claims about them.

Modelling conventions:
* Python strings are Lean `String`s; where convenient the character list
  `String.data` is used directly.
* Python's `str.lower` is modelled per character by `Char.toLower`
  (ASCII case folding; every character the program's patterns exercise is
  ASCII or case-less).
* The regular expressions this program runs are built from literal
  characters, backslash escapes for literals, and the gap `.*`
  (`REVIEW_PATTERNS` and user-supplied repo filters); they are modelled by
  `parseSegs`/`segSearch` below.  The one richer regex,
  `GITHUB_PR_PATTERN`, is modelled by the dedicated operational matcher
  `matchPRAt`/`re_findall`.
* Fatal errors (message on standard error followed by a non-zero process
  exit) are modelled by `Except PaisError`.
-/

namespace PRReviewFinder

/-! ## A matcher for the regex fragment the program uses

Python `re.search` restricted to patterns that are literal characters,
`\c` escapes standing for the literal character `c`, and the gap `.*`.
A pattern is represented as the list of its literal segments; `.*` is the
separator between consecutive segments.  `re.search` semantics: the match
may start at any position of the text, and each `.*` gap may absorb any
characters except a newline (Python `.` does not match `'\n'` by
default).  Greediness is irrelevant to the boolean question of whether a
match exists.
-/

/-- Append a literal character to the front of the first segment. -/
def pushChar (c : Char) : List (List Char) → List (List Char)
  | [] => [[c]]
  | s :: ss => (c :: s) :: ss

/-- Parse a regex source string of the supported fragment into its list of
literal segments: `.*` separates segments, `\c` contributes the literal
character `c`, and any other character contributes itself. -/
def parseSegs : List Char → List (List Char)
  | [] => [[]]
  | '\\' :: c :: rest => pushChar c (parseSegs rest)
  | '.' :: '*' :: rest => [] :: parseSegs rest
  | c :: rest => pushChar c (parseSegs rest)

/-- Match the segments `segs` somewhere in `t`, where the gap before each
segment may absorb any characters other than `'\n'` (this is the state
after the first segment has been anchored: every later segment is
preceded by a `.*` gap). -/
def matchGaps : List (List Char) → List Char → Bool
  | [], _ => true
  | s :: rest, t =>
    (s.isPrefixOf t && matchGaps rest (t.drop s.length)) ||
      (match t with
       | [] => false
       | c :: t' => decide (c ≠ '\n') && matchGaps (s :: rest) t')
termination_by segs t => (segs.length, t.length)

/-- Match the pattern with its first segment anchored at the start of `t`;
the remaining segments follow after `.*` gaps. -/
def matchHere (segs : List (List Char)) (t : List Char) : Bool :=
  match segs with
  | [] => true
  | s :: rest => s.isPrefixOf t && matchGaps rest (t.drop s.length)

/-- Python `re.search` for the supported fragment: try every start
position of the text. -/
def segSearch (segs : List (List Char)) : List Char → Bool
  | [] => matchHere segs []
  | c :: t' => matchHere segs (c :: t') || segSearch segs t'

/-- ASCII lowering of a character list, modelling Python `str.lower` on
the characters this program handles. -/
def lowerStr (t : List Char) : List Char := t.map Char.toLower

/-! ## The heuristic pattern table and classifier -/

/-- The review-request patterns, exactly the strings of the Python
constant `REVIEW_PATTERNS` (each was a raw string literal). -/
def REVIEW_PATTERNS : List String :=
  [ "👀",
    ":eyes:",
    "eyes on",
    "review",
    "please.*look",
    "look.*at",
    "need.*review",
    "can.*someone",
    "anyone.*review",
    "could.*get",
    "would.*appreciate",
    "help.*review",
    "waiting.*review",
    "blocked.*review",
    "ready.*review",
    "PTAL",
    "lgtm\\?",
    "thoughts\\?" ]

/-- One pattern applied to message text, modelling
`re.search(pattern, text.lower(), re.IGNORECASE)`: both the pattern's
literal segments and the text are case folded. -/
def patMatchesCI (pat : String) (text : List Char) : Bool :=
  segSearch ((parseSegs pat.data).map lowerStr) (lowerStr text)

/-- Model of `is_review_request`: the text matches some pattern of
`REVIEW_PATTERNS`; the Python loop returns at the first match, which is
exactly `List.any`'s short-circuit evaluation. -/
def is_review_request (text : String) : Bool :=
  REVIEW_PATTERNS.any (fun p => patMatchesCI p text.data)

/-! ## GitHub PR URL extraction

The Python constant `GITHUB_PR_PATTERN = r"https?://github\.com/[^/]+/[^/]+/pull/\d+"`
is run through `re.findall`.  `matchPRAt` is the operational form of one
anchored match attempt of that regex: each `[^/]+` is a maximal non-empty
run of non-slash characters (it cannot backtrack across the `/` that
follows it), and `\d+` is a maximal non-empty digit run (nothing follows
it).  Digits are modelled as ASCII digits.  `re_findall` scans the text
left to right and restarts after each match, exactly `re.findall` for
this pattern. -/

/-- Source text of the Python constant, for reference. -/
def GITHUB_PR_PATTERN : String := "https?://github\\.com/[^/]+/[^/]+/pull/\\d+"

/-- The scheme-and-host prefix with the optional `s` present. -/
def httpsGH : List Char := "https://github.com/".data

/-- The scheme-and-host prefix without the optional `s`. -/
def httpGH : List Char := "http://github.com/".data

/-- The literal `/pull/` segment of the pattern. -/
def pullLit : List Char := "/pull/".data

/-- Strip a literal prefix, returning the remainder on success. -/
def splitLit (p t : List Char) : Option (List Char) :=
  if p.isPrefixOf t then some (t.drop p.length) else none

/-- Match `https?://github.com/` at the start of `t`; the regex engine
tries the alternative with the optional `s` first. -/
def matchScheme (t : List Char) : Option (List Char × List Char) :=
  match splitLit httpsGH t with
  | some r => some (httpsGH, r)
  | none =>
    match splitLit httpGH t with
    | some r => some (httpGH, r)
    | none => none

/-- Character class `[^/]` of the pattern. -/
def notSlash (c : Char) : Bool := c != '/'

/-- One anchored match attempt of `GITHUB_PR_PATTERN` at the start of
`t`; on success returns the matched characters and the remainder of the
text after the match. -/
def matchPRAt (t : List Char) : Option (List Char × List Char) :=
  match matchScheme t with
  | none => none
  | some (pre, r1) =>
    let owner := r1.takeWhile notSlash
    if owner.isEmpty then none
    else
      match r1.dropWhile notSlash with
      | '/' :: r3 =>
        let repo := r3.takeWhile notSlash
        if repo.isEmpty then none
        else
          match splitLit pullLit (r3.dropWhile notSlash) with
          | some r5 =>
            let digits := r5.takeWhile Char.isDigit
            if digits.isEmpty then none
            else
              some (pre ++ owner ++ '/' :: (repo ++ pullLit ++ digits),
                    r5.dropWhile Char.isDigit)
          | none => none
      | _ => none

theorem splitLit_eq {p t r : List Char} (h : splitLit p t = some r) :
    t = p ++ r := by
  unfold splitLit at h
  split at h
  · next hp =>
    cases h
    have hpre : p <+: t := by
      exact ( List.isPrefixOf_iff_prefix).1 hp
    obtain ⟨u, hu⟩ := hpre
    subst hu
    simp
  · exact absurd h (by simp)

theorem matchScheme_eq {t pre r : List Char}
    (h : matchScheme t = some (pre, r)) : t = pre ++ r ∧ pre ≠ [] := by
  unfold matchScheme at h
  split at h
  · next heq =>
    cases h
    exact ⟨splitLit_eq heq, by simp [httpsGH]⟩
  · split at h
    · next heq =>
      cases h
      exact ⟨splitLit_eq heq, by simp [httpGH]⟩
    · exact absurd h (by simp)

/-- A successful match attempt splits the text as the match followed by
the remainder, and the match is non-empty. -/
theorem matchPRAt_eq {t m r : List Char} (h : matchPRAt t = some (m, r)) :
    t = m ++ r ∧ m ≠ [] := by
  unfold matchPRAt at h
  split at h
  · exact absurd h (by simp)
  · next pre r1 hscheme =>
    obtain ⟨ht, hpre⟩ := matchScheme_eq hscheme
    simp only at h
    split at h
    · exact absurd h (by simp)
    · split at h
      · next r3 hr3 =>
        split at h
        · exact absurd h (by simp)
        · split at h
          · next r5 hr5 =>
            split at h
            · exact absurd h (by simp)
            · next hdig =>
              cases h
              refine ⟨?_, by simp [hpre]⟩
              have h1 : r1 = r1.takeWhile notSlash ++ ('/' :: r3) := by
                rw [← hr3, List.takeWhile_append_dropWhile]
              have h3 : r3.dropWhile notSlash = pullLit ++ r5 :=
                splitLit_eq hr5
              have h3' : r3 = r3.takeWhile notSlash ++ (pullLit ++ r5) := by
                rw [← h3, List.takeWhile_append_dropWhile]
              have h5 : r5 = r5.takeWhile Char.isDigit ++
                  r5.dropWhile Char.isDigit := by
                rw [List.takeWhile_append_dropWhile]
              set owner := r1.takeWhile notSlash with hO
              set repo := r3.takeWhile notSlash with hR
              set digits := r5.takeWhile Char.isDigit with hD
              set rest := r5.dropWhile Char.isDigit with hRest
              rw [ht, h1, h3', h5]
              simp
          · exact absurd h (by simp)
      · exact absurd h (by simp)

/-- Model of `re.findall(GITHUB_PR_PATTERN, text)`: scan left to right,
emit each match and resume after it. -/
def re_findall (t : List Char) : List (List Char) :=
  match hm : matchPRAt t with
  | some (m, r) => m :: re_findall r
  | none =>
    match t with
    | [] => []
    | _ :: t' => re_findall t'
termination_by t.length
decreasing_by
  · obtain ⟨ht, hm0⟩ := matchPRAt_eq hm
    subst ht
    simp only [List.length_append]
    have : 0 < m.length := List.length_pos.2 hm0
    omega
  · simp

/-- Model of `extract_pr_urls(text, repo_pattern)`: find all PR URLs,
then, when a repo pattern is supplied and truthy (Python `if
repo_pattern:` — `None` and the empty string are falsy), keep only the
URLs in which the pattern matches. -/
def extract_pr_urls (text : String) (repo_pattern : Option String) :
    List String :=
  let urls := re_findall text.data
  let kept :=
    match repo_pattern with
    | none => urls
    | some p =>
      if p = "" then urls
      else urls.filter (fun u => segSearch (parseSegs p.data) u)
  kept.map (fun u => String.mk u)

/-! ## Configuration loading and the CLI commands -/

/-- The fatal failure modes of the program.  In the Python source each is
a message printed to standard error followed by a non-zero process exit
(`sys.exit(1)` for the first three; an uncaught exception for the last
two).  The names follow the specification's labels. -/
inductive PaisError where
  | ConfigNotFound
  | ConfigParseError
  | ChannelNotFound
  | ConfigTypeError
  deriving DecidableEq, Repr

/-- Parsed YAML documents, as produced by `yaml.safe_load`. -/
inductive Yaml where
  | null : Yaml
  | bool : Bool → Yaml
  | int : Int → Yaml
  | str : String → Yaml
  | seq : List Yaml → Yaml
  | map : List (String × Yaml) → Yaml
  deriving Repr

/-- Python `dict.get(k, dflt)` on the association-list model of a dict
(keys are unique in a Python dict; lookup takes the first occurrence). -/
def yamlGet (entries : List (String × Yaml)) (k : String) (dflt : Yaml) :
    Yaml :=
  match entries.lookup k with
  | some v => v
  | none => dflt

/-- Model of `load_channels`.  The two external effects are abstracted
into the argument: `none` is an absent `channels.yaml` (the code prints
an error and exits), `some none` a present file on which `yaml.safe_load`
raises (the uncaught `yaml.YAMLError` aborts the process), and
`some (some d)` a present file parsing to the document `d`.  The code
then returns `data.get("channels", {})`; when the document is not a
mapping, `data.get` raises an uncaught `AttributeError`, modelled as
`ConfigTypeError`. -/
def load_channels (file : Option (Option Yaml)) : Except PaisError Yaml :=
  match file with
  | none => .error .ConfigNotFound
  | some none => .error .ConfigParseError
  | some (some d) =>
    match d with
    | .map entries => .ok (yamlGet entries "channels" (.map []))
    | _ => .error .ConfigTypeError

/-- The name-fallback filter of `cmd_search`:
`{k: v for k, v in channels.items() if channel_filter.lower() in v.lower()}`. -/
def nameMatched (channels : List (String × String)) (f : String) :
    List (String × String) :=
  channels.filter (fun kv => decide (lowerStr f.data <:+: lowerStr kv.2.data))

/-- The channel-filter step of `cmd_search`.  A falsy filter (Python
`if channel_filter:` — `None` or the empty string) leaves the registry
unchanged; otherwise an exact key match selects that single channel, a
non-empty case-insensitive substring match on display names selects the
matched subset, and anything else is the fatal channel-not-found error. -/
def resolve_channels (channels : List (String × String))
    (channel_filter : Option String) :
    Except PaisError (List (String × String)) :=
  match channel_filter with
  | none => .ok channels
  | some f =>
    if f = "" then .ok channels
    else
      match channels.lookup f with
      | some v => .ok [(f, v)]
      | none =>
        let matched := nameMatched channels f
        if matched.isEmpty then .error .ChannelNotFound
        else .ok matched

/-- The hard-coded default of the `repo_pattern` JSON field. -/
def DEFAULT_REPO_PATTERN : String := "github.com/tatari-tv/.*/pull/"

/-- Python `x or d` for an optional string: the default replaces both
`None` and the falsy empty string. -/
def pyOrStr (x : Option String) (d : String) : String :=
  match x with
  | none => d
  | some s => if s = "" then d else s

/-- The search specification value assembled by `cmd_search` (the
`search_config` dict, in insertion order).  `cutoff_timestamp` is
`(datetime.now() - timedelta(days=days)).timestamp()`; wall-clock time is
abstracted into the `now` argument of `cmd_search` and the subtraction is
modelled in whole seconds. -/
structure SearchConfig where
  action : String
  channels : List (String × String)
  lookback_days : Int
  cutoff_timestamp : Int
  repo_pattern : String
  review_patterns : List String
  instructions : String
  deriving DecidableEq, Repr

/-- The fixed part of the `instructions` f-string of `cmd_search`
(note its inline default differs from the `repo_pattern` field's). -/
def instrHeader (days : Int) (repo_pattern : Option String) : String :=
  "\nSearch these Slack channels for PR review requests from the last "
    ++ toString days ++ " days.\n\nFor each channel, use mcp__slack__slack_get_channel_history to get messages,\nthen look for messages that:\n1. Contain GitHub PR URLs matching: "
    ++ pyOrStr repo_pattern "github.com/tatari-tv/*/pull/*"
    ++ "\n2. Contain review request patterns like: eyes, 👀, review, please look, etc.\n\nReport findings as:\n- Channel name\n- Message author\n- Date/time\n- PR URL(s)\n- Message snippet\n\nChannels to search:\n"

/-- The per-channel lines appended to `instructions` by the final loop of
`cmd_search`. -/
def channelLines (channels : List (String × String)) : String :=
  channels.foldl
    (fun acc kv => acc ++ "  - " ++ kv.2 ++ " (" ++ kv.1 ++ ")\n") ""

/-- Model of `cmd_search` after the registry has been loaded: resolve the
channel filter, then build the search specification that is serialized
and printed. -/
def cmd_search (channels : List (String × String)) (days : Int)
    (channel_filter : Option String) (repo_pattern : Option String)
    (now : Int) : Except PaisError SearchConfig :=
  match resolve_channels channels channel_filter with
  | .error e => .error e
  | .ok sel =>
    .ok
      { action := "search_slack_for_pr_reviews"
        channels := sel
        lookback_days := days
        cutoff_timestamp := now - days * 86400
        repo_pattern := pyOrStr repo_pattern DEFAULT_REPO_PATTERN
        review_patterns := REVIEW_PATTERNS
        instructions := instrHeader days repo_pattern ++ channelLines sel }

/-- JSON values, for the shape of the emitted document. -/
inductive JVal where
  | jstr : String → JVal
  | jint : Int → JVal
  | jarr : List JVal → JVal
  | jobj : List (String × JVal) → JVal
  deriving Repr

/-- The JSON object printed by `cmd_search` (`json.dumps(search_config)`
keeps the dict's insertion order). -/
def renderSearchJson (c : SearchConfig) : List (String × JVal) :=
  [ ("action", .jstr c.action),
    ("channels", .jobj (c.channels.map (fun kv => (kv.1, .jstr kv.2)))),
    ("lookback_days", .jint c.lookback_days),
    ("cutoff_timestamp", .jint c.cutoff_timestamp),
    ("repo_pattern", .jstr c.repo_pattern),
    ("review_patterns", .jarr (c.review_patterns.map .jstr)),
    ("instructions", .jstr c.instructions) ]

/-- Model of `cmd_list_channels`: the lines printed to standard output
(one list element per `print` call).  The rows are the registry sorted by
display name — `sorted(channels.items(), key=lambda x: x[1])`, a stable
sort — and `plugin_dir` is the plugin directory the config path is joined
to. -/
def cmd_list_channels (plugin_dir : String)
    (channels : List (String × String)) : List String :=
  [ "Configured channels:",
    String.mk (List.replicate 50 '-') ] ++
  (channels.mergeSort (fun a b => decide (a.2 ≤ b.2))).map
    (fun kv => "  " ++ kv.1 ++ ": " ++ kv.2) ++
  [ "\nTotal: " ++ toString channels.length ++ " channels",
    "\nEdit " ++ plugin_dir ++ "/channels.yaml to add/remove channels" ]

/-! ## Lemmas about the fragment matcher -/

theorem isPrefixOf_append_self (s v : List Char) :
    s.isPrefixOf (s ++ v) = true :=
  ( List.isPrefixOf_iff_prefix).2 ⟨v, rfl⟩

theorem matchHere_single_here (s v : List Char) :
    matchHere [s] (s ++ v) = true := by
  simp [matchHere, matchGaps, isPrefixOf_append_self]

theorem segSearch_of_matchHere {segs : List (List Char)} {t : List Char}
    (h : matchHere segs t = true) : segSearch segs t = true := by
  cases t with
  | nil => simpa [segSearch] using h
  | cons c t' => simp [segSearch, h]

theorem segSearch_cons_of_tail {segs : List (List Char)} {c : Char}
    {t : List Char} (h : segSearch segs t = true) :
    segSearch segs (c :: t) = true := by
  simp [segSearch, h]

/-- A single-segment pattern (a plain substring search) succeeds on any
text that contains the segment. -/
theorem segSearch_single_of_substring {s t : List Char} (h : s <:+: t) :
    segSearch [s] t = true := by
  obtain ⟨u, v, huv⟩ := h
  subst huv
  induction u with
  | nil => exact segSearch_of_matchHere (by simpa using matchHere_single_here s v)
  | cons a u ih => exact segSearch_cons_of_tail ih

/-- Every segment of a successful gap match occurs in the text. -/
theorem matchGaps_infixes :
    ∀ (segs : List (List Char)) (t : List Char), matchGaps segs t = true →
      ∀ s ∈ segs, s <:+: t := by
  intro segs
  induction segs with
  | nil => intro t _ s hs; cases hs
  | cons a rest ih =>
    intro t
    induction t with
    | nil =>
      intro h s hs
      rw [matchGaps] at h
      simp only [List.drop_nil, Bool.or_eq_true, Bool.and_eq_true] at h
      rcases h with ⟨hpre, hrest⟩ | h
      · rcases List.mem_cons.1 hs with hs | hs
        · subst hs
          have := ( List.isPrefixOf_iff_prefix).1 hpre
          exact this.isInfix
        · exact (ih [] hrest s hs)
      · cases h
    | cons c t' iht =>
      intro h s hs
      rw [matchGaps] at h
      simp only [Bool.or_eq_true, Bool.and_eq_true, decide_eq_true_eq] at h
      rcases h with ⟨hpre, hrest⟩ | ⟨_, h⟩
      · rcases List.mem_cons.1 hs with hs | hs
        · subst hs
          have := ( List.isPrefixOf_iff_prefix).1 hpre
          exact this.isInfix
        · have hinf := ih ((c :: t').drop a.length) hrest s hs
          exact hinf.trans (List.drop_suffix _ _).isInfix
      · have hinf := iht h s hs
        exact hinf.trans (List.suffix_cons c t').isInfix

theorem matchHere_infixes {segs : List (List Char)} {t : List Char}
    (h : matchHere segs t = true) : ∀ s ∈ segs, s <:+: t := by
  cases segs with
  | nil => intro s hs; cases hs
  | cons a rest =>
    rw [matchHere] at h
    simp only [Bool.and_eq_true] at h
    intro s hs
    rcases List.mem_cons.1 hs with hs | hs
    · subst hs
      exact (( List.isPrefixOf_iff_prefix).1 h.1).isInfix
    · exact (matchGaps_infixes rest _ h.2 s hs).trans
        (List.drop_suffix _ _).isInfix

/-- Every segment of a successful search occurs in the text. -/
theorem segSearch_infixes :
    ∀ {segs : List (List Char)} {t : List Char}, segSearch segs t = true →
      ∀ s ∈ segs, s <:+: t := by
  intro segs t
  induction t with
  | nil =>
    intro h s hs
    exact matchHere_infixes (by simpa [segSearch] using h) s hs
  | cons c t' ih =>
    intro h s hs
    rw [segSearch] at h
    simp only [Bool.or_eq_true] at h
    rcases h with h | h
    · exact matchHere_infixes h s hs
    · exact (ih h s hs).trans (List.suffix_cons c t').isInfix

theorem pushChar_ne_nil (c : Char) (ss : List (List Char)) :
    pushChar c ss ≠ [] := by
  cases ss <;> simp [pushChar]

/-- The segment list of a pattern is never empty. -/
theorem parseSegs_ne_nil : ∀ l : List Char, parseSegs l ≠ [] := by
  intro l
  induction l using parseSegs.induct with
  | case1 => simp [parseSegs]
  | case2 c rest ih =>
    rw [parseSegs]
    exact pushChar_ne_nil c (parseSegs rest)
  | case3 rest ih => simp [parseSegs]
  | case4 c rest h1 h2 ih =>
    rw [parseSegs.eq_def]
    split
    · simp
    · simp_all
    · simp_all
    · next c2 rest2 hne1 hne2 heq =>
      cases hp : parseSegs rest2 with
      | nil =>
        injection heq with hc hr
        subst hr
        exact absurd hp ih
      | cons s ss => simp [pushChar, hp]

/-! ## Lemmas about PR URL extraction -/

/-- Elements of a `takeWhile` run satisfy the predicate. -/
theorem mem_takeWhile_sat {α : Type} {p : α → Bool} :
    ∀ {l : List α} {c : α}, c ∈ l.takeWhile p → p c = true := by
  intro l
  induction l with
  | nil => intro c hc; simp [List.takeWhile] at hc
  | cons a l ih =>
    intro c hc
    rw [List.takeWhile_cons] at hc
    by_cases hpa : p a = true
    · simp only [hpa, if_true] at hc
      rcases List.mem_cons.1 hc with hc | hc
      · subst hc; exact hpa
      · exact ih hc
    · simp only [Bool.not_eq_true] at hpa
      simp [hpa] at hc

theorem matchScheme_pre {t pre r : List Char}
    (h : matchScheme t = some (pre, r)) : pre = httpsGH ∨ pre = httpGH := by
  unfold matchScheme at h
  split at h
  · cases h; exact Or.inl rfl
  · split at h
    · cases h; exact Or.inr rfl
    · exact absurd h (by simp)

/-- The shape described by `GITHUB_PR_PATTERN`: a scheme-and-host prefix,
a non-empty slash-free owner, a slash, a non-empty slash-free repository,
the literal pull segment, and a non-empty run of digits. -/
def PRShape (m : List Char) : Prop :=
  ∃ pre owner repo digits : List Char,
    (pre = httpsGH ∨ pre = httpGH) ∧
    m = pre ++ owner ++ '/' :: (repo ++ pullLit ++ digits) ∧
    owner ≠ [] ∧ repo ≠ [] ∧ digits ≠ [] ∧
    (∀ c ∈ owner, notSlash c = true) ∧
    (∀ c ∈ repo, notSlash c = true) ∧
    (∀ c ∈ digits, c.isDigit = true)

/-- A successful match attempt produces a string of the PR URL shape. -/
theorem matchPRAt_shape {t m r : List Char}
    (h : matchPRAt t = some (m, r)) : PRShape m := by
  unfold matchPRAt at h
  split at h
  · exact absurd h (by simp)
  · next pre r1 hscheme =>
    simp only at h
    split at h
    · exact absurd h (by simp)
    · next howner =>
      split at h
      · next r3 hr3 =>
        split at h
        · exact absurd h (by simp)
        · next hrepo =>
          split at h
          · next r5 hr5 =>
            split at h
            · exact absurd h (by simp)
            · next hdig =>
              cases h
              refine ⟨pre, r1.takeWhile notSlash, r3.takeWhile notSlash,
                r5.takeWhile Char.isDigit, matchScheme_pre hscheme, rfl,
                ?_, ?_, ?_, ?_, ?_, ?_⟩
              · intro hnil
                exact howner (by simp [hnil])
              · intro hnil
                exact hrepo (by simp [hnil])
              · intro hnil
                exact hdig (by simp [hnil])
              · intro c hc; exact mem_takeWhile_sat hc
              · intro c hc; exact mem_takeWhile_sat hc
              · intro c hc; exact mem_takeWhile_sat hc
          · exact absurd h (by simp)
      · exact absurd h (by simp)

theorem re_findall_eq_pos {t m r : List Char}
    (hm : matchPRAt t = some (m, r)) :
    re_findall t = m :: re_findall r := by
  rw [re_findall.eq_def]
  split
  · next m' r' hm' =>
    rw [hm] at hm'
    simp only [Option.some.injEq, Prod.mk.injEq] at hm'
    rw [hm'.1, hm'.2]
  · next hm' =>
    rw [hm] at hm'
    cases hm'

theorem re_findall_nil : re_findall [] = [] := by
  rw [re_findall.eq_def]
  split
  · next m' r' hm' =>
    rw [show matchPRAt [] = none from rfl] at hm'
    cases hm'
  · rfl

theorem re_findall_eq_neg {c : Char} {t' : List Char}
    (hm : matchPRAt (c :: t') = none) :
    re_findall (c :: t') = re_findall t' := by
  rw [re_findall.eq_def]
  split
  · next m' r' hm' =>
    rw [hm] at hm'
    cases hm'
  · rfl

/-- The matches occur in the text from left to right, each one a
contiguous block after the previous match. -/
inductive InOrder : List Char → List (List Char) → Prop where
  | nil (t : List Char) : InOrder t []
  | cons (g m r : List Char) (ms : List (List Char)) :
      InOrder r ms → InOrder (g ++ (m ++ r)) (m :: ms)

theorem InOrder.cons_left {t : List Char} {ms : List (List Char)}
    (c : Char) (h : InOrder t ms) : InOrder (c :: t) ms := by
  cases h with
  | nil => exact .nil _
  | cons g m r ms hr =>
    have := InOrder.cons (c :: g) m r ms hr
    simpa using this

/-- Soundness of the findall scan: the reported matches occur in the text
in order of occurrence. -/
theorem re_findall_inOrder : ∀ t : List Char, InOrder t (re_findall t) := by
  intro t
  induction t using re_findall.induct with
  | case1 t m r hm ih =>
    rw [re_findall_eq_pos hm]
    obtain ⟨ht, -⟩ := matchPRAt_eq hm
    rw [ht]
    exact InOrder.cons [] m r _ ih
  | case2 hm hm2 => exact re_findall_nil ▸ InOrder.nil []
  | case3 c t' hm hm2 ih =>
    rw [re_findall_eq_neg hm]
    exact ih.cons_left c

/-- Every reported match has the PR URL shape. -/
theorem re_findall_shape :
    ∀ t : List Char, ∀ m ∈ re_findall t, PRShape m := by
  intro t
  induction t using re_findall.induct with
  | case1 t m r hm ih =>
    rw [re_findall_eq_pos hm]
    intro u hu
    rcases List.mem_cons.1 hu with hu | hu
    · subst hu; exact matchPRAt_shape hm
    · exact ih u hu
  | case2 hm hm2 =>
    rw [re_findall_nil]
    intro u hu
    cases hu
  | case3 c t' hm hm2 ih =>
    rw [re_findall_eq_neg hm]
    exact ih

/-- The empty regex (one empty segment) matches every text. -/
theorem segSearch_empty_pat : ∀ t : List Char, segSearch [[]] t = true := by
  intro t
  cases t with
  | nil => simp [segSearch, matchHere, matchGaps, List.isPrefixOf]
  | cons c t' => simp [segSearch, matchHere, matchGaps, List.isPrefixOf]

/-- All literal substrings of the heuristic pattern set: the segments of
every pattern of `REVIEW_PATTERNS`. -/
def heuristicSegs : List (List Char) :=
  (REVIEW_PATTERNS.map (fun p => parseSegs p.data)).flatten

/-! ## Claims -/

/-- C1: the channel filter resolves by exact identifier first, then by
case-insensitive display-name substring, and otherwise fails with the
channel-not-found error; with filter "eng" against
the registry C1 ↦ eng-backend, C2 ↦ random, exactly C1 is selected. -/
theorem claim_C1 :
    (∀ (cs : List (String × String)) (f v : String), f ≠ "" →
        cs.lookup f = some v →
        resolve_channels cs (some f) = .ok [(f, v)]) ∧
    (∀ (cs : List (String × String)) (f : String), f ≠ "" →
        cs.lookup f = none → nameMatched cs f ≠ [] →
        resolve_channels cs (some f) = .ok (nameMatched cs f)) ∧
    (∀ (cs : List (String × String)) (f : String), f ≠ "" →
        cs.lookup f = none → nameMatched cs f = [] →
        resolve_channels cs (some f) = .error .ChannelNotFound) ∧
    resolve_channels [("C1", "eng-backend"), ("C2", "random")] (some "eng") =
      .ok [("C1", "eng-backend")] := by
  refine ⟨?_, ?_, ?_, rfl⟩
  · intro cs f v hf hl
    simp [resolve_channels, hf, hl]
  · intro cs f hf hl hm
    simp [resolve_channels, hf, hl, List.isEmpty_iff, hm]
  · intro cs f hf hl hm
    simp [resolve_channels, hf, hl, List.isEmpty_iff, hm]

theorem claim_C1_witness :
    resolve_channels [("a", "x")] (some "a") = .ok [("a", "x")] :=
  claim_C1.1 [("a", "x")] "a" "x" (by decide) (by decide)

/-- C2: loading the registry fails with the config-not-found error when
the file is absent and the parse error when the YAML is malformed; a
well-formed config document (a top-level mapping) yields its `channels`
entry, defaulting to the empty mapping. -/
theorem claim_C2 :
    load_channels none = .error .ConfigNotFound ∧
    load_channels (some none) = .error .ConfigParseError ∧
    ∀ entries : List (String × Yaml),
      load_channels (some (some (.map entries))) =
        .ok (yamlGet entries "channels" (.map [])) :=
  ⟨rfl, rfl, fun _ => rfl⟩

/-- C3: classification is true exactly when some pattern of the fixed set
matches case-insensitively, it is decided by the first matching pattern
with no scoring, and any text containing "👀", ":eyes:" or "PTAL" in any
letter case is classified as a review request. -/
theorem claim_C3 :
    (∀ t : String, is_review_request t = true ↔
        ∃ p ∈ REVIEW_PATTERNS, patMatchesCI p t.data = true) ∧
    (∀ t : String, is_review_request t =
        (REVIEW_PATTERNS.find? (fun p => patMatchesCI p t.data)).isSome) ∧
    (∀ t : String,
        ("👀".data <:+: t.data ∨ ":eyes:".data <:+: lowerStr t.data ∨
            "ptal".data <:+: lowerStr t.data) →
        is_review_request t = true) := by
  refine ⟨?_, ?_, ?_⟩
  · intro t
    simp [is_review_request, List.any_eq_true]
  · intro t
    rw [Bool.eq_iff_iff]
    simp [is_review_request, List.any_eq_true, List.find?_isSome]
  · intro t h
    have step : ∀ pat : String, pat ∈ REVIEW_PATTERNS →
        (parseSegs pat.data).map lowerStr = [lowerStr pat.data] →
        lowerStr pat.data <:+: lowerStr t.data →
        is_review_request t = true := by
      intro pat hmem hsegs hinf
      apply List.any_eq_true.2
      refine ⟨pat, hmem, ?_⟩
      unfold patMatchesCI
      rw [hsegs]
      exact segSearch_single_of_substring hinf
    rcases h with h | h | h
    · refine step "👀" (by decide) (by decide) ?_
      rw [show lowerStr "👀".data = "👀".data from by decide]
      have hmap := h.map Char.toLower
      rw [show List.map Char.toLower "👀".data = "👀".data from by decide]
        at hmap
      exact hmap
    · refine step ":eyes:" (by decide) (by decide) ?_
      rw [show lowerStr ":eyes:".data = ":eyes:".data from by decide]
      exact h
    · refine step "PTAL" (by decide) (by decide) ?_
      rw [show lowerStr "PTAL".data = "ptal".data from by decide]
      exact h

theorem claim_C3_witness :
    is_review_request "zzz PTAL zzz" = true :=
  claim_C3.2.2 "zzz PTAL zzz" (Or.inr (Or.inr (by decide)))

/-- C4: a text containing none of the literal heuristic substrings (the
segments of the patterns, compared case-insensitively) is not classified
as a review request. -/
theorem claim_C4 :
    ∀ t : String,
      (∀ s ∈ heuristicSegs, ¬ (lowerStr s <:+: lowerStr t.data)) →
      is_review_request t = false := by
  intro t h
  cases hb : is_review_request t with
  | false => rfl
  | true =>
    exfalso
    obtain ⟨p, hp, hmatch⟩ :=
      List.any_eq_true.1 (by rw [← is_review_request]; exact hb)
    have hsegs := segSearch_infixes (by exact hmatch)
    cases hps : parseSegs p.data with
    | nil => exact parseSegs_ne_nil p.data hps
    | cons s0 ss =>
      have hmem : lowerStr s0 ∈ (parseSegs p.data).map lowerStr := by
        rw [hps]
        exact List.mem_map_of_mem _ (by simp)
      have hinf := hsegs _ hmem
      refine h s0 ?_ hinf
      unfold heuristicSegs
      refine List.mem_flatten.2 ⟨parseSegs p.data, ?_, ?_⟩
      · exact List.mem_map_of_mem _ hp
      · rw [hps]; simp

theorem claim_C4_witness :
    is_review_request "zzz" = false :=
  claim_C4 "zzz" (by decide)

/-- C8: listing channels for an empty registry prints the header, the
divider, a total of 0 channels and the edit hint — no channel rows. -/
theorem claim_C8 (plugin_dir : String) :
    cmd_list_channels plugin_dir [] =
      [ "Configured channels:",
        String.mk (List.replicate 50 '-'),
        "\nTotal: 0 channels",
        "\nEdit " ++ plugin_dir ++ "/channels.yaml to add/remove channels" ] := by
  simp [cmd_list_channels]
  rfl

theorem map_mk_filter (f : List Char → Bool) :
    ∀ urls : List (List Char),
      (urls.map String.mk).filter (fun u => f u.data) =
        (urls.filter f).map String.mk := by
  intro urls
  induction urls with
  | nil => rfl
  | cons a l ih =>
    show ((String.mk a) :: l.map String.mk).filter (fun u => f u.data) =
      ((a :: l).filter f).map String.mk
    rw [List.filter_cons, List.filter_cons]
    cases hf : f a
    · rw [if_neg (by simpa using hf), if_neg (by simpa using hf)]
      exact ih
    · rw [if_pos (by simpa using hf), if_pos (by simpa using hf)]
      rw [List.map_cons, ih]

unseal re_findall in
/-- C5: extraction with no repo filter reports the pattern's matches, in
order of occurrence, each of the GitHub PR URL shape; on the text
"see https://github.com/org/repo/pull/42" the result is exactly that
URL. -/
theorem claim_C5 :
    (∀ t : String,
        InOrder t.data ((extract_pr_urls t none).map String.data) ∧
        ∀ u ∈ extract_pr_urls t none, PRShape u.data) ∧
    extract_pr_urls "see https://github.com/org/repo/pull/42" none =
      ["https://github.com/org/repo/pull/42"] := by
  constructor
  · intro t
    constructor
    · have hmaps : (extract_pr_urls t none).map String.data =
          re_findall t.data := by
        simp only [extract_pr_urls, List.map_map]
        change List.map (fun u => u) (re_findall t.data) = re_findall t.data
        simp
      rw [hmaps]
      exact re_findall_inOrder t.data
    · intro u hu
      simp only [extract_pr_urls] at hu
      obtain ⟨m, hm, rfl⟩ := List.mem_map.1 hu
      exact re_findall_shape t.data m hm
  · rfl

unseal re_findall in
theorem claim_C5_witness :
    "https://github.com/org/repo/pull/42" ∈
        extract_pr_urls "see https://github.com/org/repo/pull/42" none ∧
    PRShape "https://github.com/org/repo/pull/42".data :=
  ⟨by decide,
   (claim_C5.1 "see https://github.com/org/repo/pull/42").2
     "https://github.com/org/repo/pull/42" (by decide)⟩

unseal re_findall in
/-- C6: with a repo filter, extraction keeps exactly the URLs in which
the filter regex matches; the filter "org2" on a text whose only PR URL
is under org1 yields the empty sequence. -/
theorem claim_C6 :
    (∀ t p : String,
        extract_pr_urls t (some p) =
          (extract_pr_urls t none).filter
            (fun u => segSearch (parseSegs p.data) u.data)) ∧
    extract_pr_urls "see https://github.com/org1/x/pull/1" (some "org2") =
      [] := by
  constructor
  · intro t p
    by_cases hp : p = ""
    · subst hp
      rw [List.filter_eq_self.2]
      · simp [extract_pr_urls]
      · intro a _
        show segSearch (parseSegs "".data) a.data = true
        rw [show parseSegs "".data = [[]] from rfl]
        exact segSearch_empty_pat a.data
    · simp only [extract_pr_urls]
      rw [if_neg hp]
      exact (map_mk_filter (fun u => segSearch (parseSegs p.data) u)
        (re_findall t.data)).symm
  · rfl

/-- C9: filtered extraction is an order-preserving subsequence of
unfiltered extraction on the same text, for every text and filter. -/
theorem claim_C9 :
    ∀ t p : String,
      (extract_pr_urls t (some p)).Sublist (extract_pr_urls t none) := by
  intro t p
  simp only [extract_pr_urls]
  by_cases hp : p = ""
  · rw [if_pos hp]
  · rw [if_neg hp]
    exact (List.filter_sublist _).map String.mk

/-- C7: a successful search emits a JSON object with exactly the seven
documented keys, whose channels field is the resolved (possibly
filtered) registry, whose lookback is the requested one and whose
review patterns are the fixed pattern set. -/
theorem claim_C7 :
    ∀ (cs : List (String × String)) (days : Int) (f rp : Option String)
      (now : Int) (cfg : SearchConfig),
      cmd_search cs days f rp now = .ok cfg →
      (renderSearchJson cfg).map Prod.fst =
          ["action", "channels", "lookback_days", "cutoff_timestamp",
           "repo_pattern", "review_patterns", "instructions"] ∧
      resolve_channels cs f = .ok cfg.channels ∧
      (renderSearchJson cfg).lookup "channels" =
          some (.jobj (cfg.channels.map (fun kv => (kv.1, .jstr kv.2)))) ∧
      (renderSearchJson cfg).lookup "lookback_days" = some (.jint days) ∧
      (renderSearchJson cfg).lookup "review_patterns" =
          some (.jarr (REVIEW_PATTERNS.map .jstr)) := by
  intro cs days f rp now cfg h
  unfold cmd_search at h
  split at h
  · cases h
  · next sel hres =>
    cases h
    exact ⟨rfl, hres, rfl, rfl, rfl⟩

theorem claim_C7_witness :
    (cmd_search [("C1", "eng")] 7 none none 0).map
        (fun cfg => (renderSearchJson cfg).map Prod.fst) =
      .ok ["action", "channels", "lookback_days", "cutoff_timestamp",
           "repo_pattern", "review_patterns", "instructions"] := by
  rcases hok : cmd_search [("C1", "eng")] 7 none none 0 with e | cfg
  · rw [show cmd_search [("C1", "eng")] 7 none none 0 =
        .ok { action := "search_slack_for_pr_reviews",
              channels := [("C1", "eng")], lookback_days := 7,
              cutoff_timestamp := 0 - 7 * 86400,
              repo_pattern := pyOrStr none DEFAULT_REPO_PATTERN,
              review_patterns := REVIEW_PATTERNS,
              instructions := instrHeader 7 none ++
                channelLines [("C1", "eng")] } from rfl] at hok
    cases hok
  · have hc := claim_C7 [("C1", "eng")] 7 none none 0 cfg hok
    simp [Except.map, hc.1]

/-- C10: a missing or empty repo pattern makes the emitted specification
carry the hard-coded default repo pattern, and a non-empty supplied
pattern is carried unchanged. -/
theorem claim_C10 :
    (∀ (cs : List (String × String)) (days : Int) (f : Option String)
        (now : Int) (cfg : SearchConfig),
        cmd_search cs days f none now = .ok cfg →
        cfg.repo_pattern = "github.com/tatari-tv/.*/pull/") ∧
    (∀ (cs : List (String × String)) (days : Int) (f : Option String)
        (now : Int) (cfg : SearchConfig),
        cmd_search cs days f (some "") now = .ok cfg →
        cfg.repo_pattern = "github.com/tatari-tv/.*/pull/") ∧
    (∀ (cs : List (String × String)) (days : Int) (f : Option String)
        (now : Int) (cfg : SearchConfig) (rp : String), rp ≠ "" →
        cmd_search cs days f (some rp) now = .ok cfg →
        cfg.repo_pattern = rp) := by
  refine ⟨?_, ?_, ?_⟩
  · intro cs days f now cfg h
    unfold cmd_search at h
    split at h
    · cases h
    · cases h; rfl
  · intro cs days f now cfg h
    unfold cmd_search at h
    split at h
    · cases h
    · cases h; rfl
  · intro cs days f now cfg rp hrp h
    unfold cmd_search at h
    split at h
    · cases h
    · cases h
      show pyOrStr (some rp) DEFAULT_REPO_PATTERN = rp
      simp [pyOrStr, hrp]

theorem claim_C10_witness :
    SearchConfig.repo_pattern
        { action := "search_slack_for_pr_reviews", channels := [],
          lookback_days := 30, cutoff_timestamp := 0 - 30 * 86400,
          repo_pattern := pyOrStr none DEFAULT_REPO_PATTERN,
          review_patterns := REVIEW_PATTERNS,
          instructions := instrHeader 30 none ++ channelLines [] } =
      "github.com/tatari-tv/.*/pull/" :=
  claim_C10.1 [] 30 none 0 _ rfl

end PRReviewFinder
